import Mathlib

/-!
# Verification of the resx-translations-mcp core

Shallow embedding of the repository's core: the `.resx` document model
(`src/types.ts`), input validation (`src/utils/validation.ts`), the upsert
workflow (`src/tools/upsert-translation.ts`), the file-lock coordinator
(`src/utils/file-lock.ts`), and the codec's canonical write ordering
(`src/utils/resx.ts`, whose sorting behaviour is modelled from the spec
since the codec source itself is not in the snapshot; its tests pin the
behaviour).

Strings are Lean `String`s; the JS string primitives used by the code
(`trim`, `toLowerCase`, `endsWith`, regex replaces of `\r\n` and `\r`)
are re-implemented structurally over `List Char` so that all definitions
evaluate inside the kernel.  Key comparison is ordinal, modelled as the
lexicographic order on `List Char` (byte-wise for the ASCII keys the
format uses).
-/

namespace ResxMcp

/- ── JS string primitives ──────────────────────────────────────────── -/

/-- `String.prototype.trim`: drop leading and trailing whitespace. -/
def jsTrimList (l : List Char) : List Char :=
  ((l.dropWhile Char.isWhitespace).reverse.dropWhile Char.isWhitespace).reverse

/-- `value.trim()` on a Lean `String`. -/
def jsTrim (s : String) : String := ⟨jsTrimList s.data⟩

/-- `String.prototype.toLowerCase` (ASCII case folding suffices here). -/
def jsToLower (s : String) : String := ⟨s.data.map Char.toLower⟩

/-- `String.prototype.endsWith`. -/
def strEndsWith (s tail : String) : Bool := tail.data.isSuffixOf s.data

/- ── Value normalization (src/tools/upsert-translation.ts) ─────────── -/

/-- First normalization pass: `value.replace(/\r\n/g, "\n")` — the
left-to-right regex scan collapsing every CRLF pair to a bare LF. -/
def replaceCRLF : List Char → List Char
  | [] => []
  | [c] => [c]
  | c1 :: c2 :: rest =>
      if c1 = '\r' ∧ c2 = '\n' then '\n' :: replaceCRLF rest
      else c1 :: replaceCRLF (c2 :: rest)

/-- Second normalization pass: `.replace(/\r/g, "")` — every remaining
carriage return is removed. -/
def stripCR (l : List Char) : List Char := l.filter (fun c => c ≠ '\r')

/-- The two-pass normalization applied to the upsert `value` argument:
`value.replace(/\r\n/g, "\n").replace(/\r/g, "")`. -/
def normalizeValueList (l : List Char) : List Char := stripCR (replaceCRLF l)

/-- String-level wrapper of `normalizeValueList`. -/
def normalizeValue (s : String) : String := ⟨normalizeValueList s.data⟩

/- ── Input validation (src/utils/validation.ts) ────────────────────── -/

/-- A JavaScript argument value as seen by a tool handler: either a
string or some non-string value.  A missing/undefined argument is
`Option.none` at the use site. -/
inductive JsValue : Type
  | str (s : String)
  | nonString
deriving DecidableEq, Repr

/-- Error message thrown by `requireString`. -/
def requireStringMsg (paramName : String) : String :=
  "Parameter '" ++ paramName ++ "' is required and must be a non-empty string."

/-- Error message thrown by `requireResxPath` for a non-`.resx` path. -/
def resxPathMsg (paramName got : String) : String :=
  "Parameter '" ++ paramName ++ "' must point to a .resx file (got '" ++ got ++ "')."

/-- `requireString(value, paramName)`: throws unless `value` is a string
whose trimmed form is non-empty; returns the trimmed string. -/
def requireString (value : Option JsValue) (paramName : String) :
    Except String String :=
  match value with
  | some (.str s) =>
      if (jsTrim s).data.length = 0 then .error (requireStringMsg paramName)
      else .ok (jsTrim s)
  | _ => .error (requireStringMsg paramName)

/-- `requireResxPath(value, paramName)`: `requireString`, then the path
must end with `.resx` case-insensitively. -/
def requireResxPath (value : Option JsValue) (paramName : String) :
    Except String String :=
  match requireString value paramName with
  | .error e => .error e
  | .ok filePath =>
      if strEndsWith (jsToLower filePath) ".resx" then .ok filePath
      else .error (resxPathMsg paramName filePath)

/- ── Document model (src/types.ts) ─────────────────────────────────── -/

/-- One `<data>` element: `{ $: { name, "xml:space"? }, value?, comment? }`. -/
structure ResxDataEntry : Type where
  name : String
  xmlSpace : Option String
  value : Option (List String)
  comment : Option (List String)
deriving DecidableEq, Repr

/-- The `<root>` element.  The passthrough sections (`resheader`,
`assembly`, `metadata`) are never interpreted by the core, so they are
carried as an opaque payload. -/
structure ResxRoot : Type where
  passthrough : List String
  data : Option (List ResxDataEntry)
deriving DecidableEq, Repr

/-- Top-level parsed `.resx` document. -/
structure ResxDocument : Type where
  root : ResxRoot
deriving DecidableEq, Repr

/-- Outcome of an upsert: `"added" | "updated"`. -/
inductive UpsertAction : Type
  | added
  | updated
deriving DecidableEq, Repr

/-- Ordinal sort key of an entry: its name's character sequence. -/
def nameKey (e : ResxDataEntry) : List Char := e.name.data

/- ── Record store operations ───────────────────────────────────────── -/

/-- Modelled from the spec: `FindByKey(Document, key)` is an exact-match
ordinal lookup returning the first record whose key equals `key`
(`findEntry` lives in `src/utils/resx.ts`, absent from the snapshot; its
unit tests fix first-match-by-`$.name` behaviour). -/
def findEntry (entries : List ResxDataEntry) (key : String) :
    Option ResxDataEntry :=
  entries.find? (fun e => e.name = key)

/-- `existing.value = [value]`: replace the value of the first entry
whose name is `key`, leaving every other entry untouched. -/
def updateFirstValue (entries : List ResxDataEntry) (key v : String) :
    List ResxDataEntry :=
  match entries with
  | [] => []
  | e :: rest =>
      if e.name = key then { e with value := some [v] } :: rest
      else e :: updateFirstValue rest key v

/-- The fresh entry pushed by the `added` branch:
`{ $: { name: key, "xml:space": "preserve" }, value: [value] }`. -/
def newEntry (key v : String) : ResxDataEntry :=
  { name := key, xmlSpace := some "preserve", value := some [v], comment := none }

/-- The in-memory mutation step of `handleUpsertTranslation`: look up the
key; if found, replace that record's value in place (action `updated`),
otherwise append a fresh preserve-whitespace record (action `added`). -/
def upsertEntries (entries : List ResxDataEntry) (key v : String) :
    List ResxDataEntry × UpsertAction :=
  match findEntry entries key with
  | some _ => (updateFirstValue entries key v, .updated)
  | none => (entries ++ [newEntry key v], .added)

/- ── Canonical write ordering (src/utils/resx.ts) ──────────────────── -/

/-- Ascending ordinal key order between two entries. -/
def keyLe (a b : ResxDataEntry) : Prop := nameKey a ≤ nameKey b

instance : DecidableRel keyLe := fun a b =>
  inferInstanceAs (Decidable (nameKey a ≤ nameKey b))

/-- Modelled from the spec: `writeResxFile` "produces a canonical textual
form with Records sorted ascending by key (ordinal comparison) — this
sort is unconditional and happens on every write" (`src/utils/resx.ts`
is absent from the snapshot; its unit tests pin the alphabetical
ordering).  The record sequence that reaches disk is the entry list
sorted ascending by ordinal key (a stable sort, like the JS one). -/
def sortEntries (entries : List ResxDataEntry) : List ResxDataEntry :=
  entries.insertionSort keyLe

/-- One full locked read-modify-write round trip observed at the entry
level: apply the upsert, then the serializer's unconditional sort. -/
def upsertAndWrite (entries : List ResxDataEntry) (key v : String) :
    List ResxDataEntry :=
  sortEntries (upsertEntries entries key v).1

/- ── Upsert workflow (src/tools/upsert-translation.ts) ─────────────── -/

/-- Filesystem/lock events emitted by one run of the upsert workflow, in
program order. -/
inductive FsEvent : Type
  | lockAcquire
  | parseFile
  | writeFile
  | lockRelease
deriving DecidableEq, Repr

/-- The structured result the handler returns to the dispatcher
(`content[0].text` plus the `isError` flag; an absent flag is `false`). -/
structure ToolResult : Type where
  text : String
  isError : Bool
deriving DecidableEq, Repr

/-- `path.basename`: the last `/`-separated component of a path. -/
def jsBasename (p : String) : String :=
  match (p.data.splitOn '/').getLast? with
  | some comp => ⟨comp⟩
  | none => p

/-- Rendering of an `UpsertAction` into the success message. -/
def actionText : UpsertAction → String
  | .added => "added"
  | .updated => "updated"

/-- Everything observable about one `handleUpsertTranslation` call:
the value returned (or the validation error thrown), the document that
is on disk afterwards, and the emitted event trace. -/
structure UpsertOutcome : Type where
  result : Except String ToolResult
  disk : Option ResxDocument
  events : List FsEvent
deriving Repr

/-- Shallow embedding of `handleUpsertTranslation` (the locked handler in
`src/tools/upsert-translation.ts`).  `disk` is the document the codec
would parse at the target path (`none` = `parseResxFile` returned null).
The three arguments are validated first; the value is line-ending
normalized; only then does the locked section run: acquire, parse,
mutate, write, release.  Lock acquisition itself is modelled separately
(`acquireLockFile`, `withFileLock`); here the lock is acquired
successfully, which is the regime the claim speaks about. -/
def handleUpsertTranslation (filePath key value : Option JsValue)
    (disk : Option ResxDocument) : UpsertOutcome :=
  match requireResxPath filePath "filePath" with
  | .error e => ⟨.error e, disk, []⟩
  | .ok fp =>
    match requireString key "key" with
    | .error e => ⟨.error e, disk, []⟩
    | .ok k =>
      match requireString value "value" with
      | .error e => ⟨.error e, disk, []⟩
      | .ok v0 =>
        let v := normalizeValue v0
        match disk with
        | none =>
            ⟨.ok ⟨"Unable to read file: " ++ fp, true⟩, none,
              [.lockAcquire, .parseFile, .lockRelease]⟩
        | some doc =>
            let entries := doc.root.data.getD []
            let stepped := upsertEntries entries k v
            let written : ResxDocument :=
              ⟨{ doc.root with data := some (sortEntries stepped.1) }⟩
            ⟨.ok ⟨"Successfully " ++ actionText stepped.2 ++ " key '" ++ k
                  ++ "' in " ++ jsBasename fp
                  ++ " (file sorted alphabetically).", false⟩,
              some written,
              [.lockAcquire, .parseFile, .writeFile, .lockRelease]⟩

/- ── Lock coordinator: lockfile acquisition (src/utils/file-lock.ts) ── -/

/-- `LOCK_STALE_MS`: lockfiles older than this are stale. -/
def LOCK_STALE_MS : Int := 30000

/-- `LOCK_RETRY_DELAY_MS`: fixed backoff between retries. -/
def LOCK_RETRY_DELAY_MS : Nat := 50

/-- `LOCK_MAX_RETRIES`: attempts before giving up. -/
def LOCK_MAX_RETRIES : Nat := 100

/-- Result of one `fs.open(lockPath, "wx")` attempt. -/
inductive CreateResult : Type
  | created
  | eexist
  | otherError (msg : String)
deriving DecidableEq, Repr

/-- Result of the `fs.stat(lockPath)` probe after an EEXIST. -/
inductive StatResult : Type
  | found (age : Int)
  | gone
deriving DecidableEq, Repr

/-- The filesystem's responses, indexed by attempt number: what the
exclusive create returns, and — when it returns EEXIST — what the stat
probe reports (`age` = `Date.now() - stat.mtimeMs`). -/
structure LockFs : Type where
  create : Nat → CreateResult
  stat : Nat → StatResult

/-- Externally visible actions of the acquisition loop. -/
inductive LockAction : Type
  | createAttempt
  | unlinkStale
  | sleep (ms : Nat)
deriving DecidableEq, Repr

/-- How the acquisition loop ends. -/
inductive AcquireResult : Type
  | success
  | ioError (msg : String)
  | timeoutError (msg : String)
deriving DecidableEq, Repr

/-- Error message of the bounded-retry failure. -/
def lockTimeoutMsg (filePath : String) : String :=
  "Failed to acquire lock for " ++ filePath ++ " after 100 attempts (5s)."

/-- The retry loop of `acquireLockFile`, unrolled over the remaining
fuel (`LOCK_MAX_RETRIES - attempt` at entry).  Each iteration: try the
atomic exclusive create; on success stop; on a non-EEXIST error throw
immediately; on EEXIST stat the lockfile — if it vanished retry at once,
if stale unlink it and retry at once, otherwise sleep the fixed backoff
and retry. -/
def acquireGo (fs : LockFs) (filePath : String) :
    Nat → Nat → AcquireResult × List LockAction
  | 0, _ => (.timeoutError (lockTimeoutMsg filePath), [])
  | fuel + 1, attempt =>
    match fs.create attempt with
    | .created => (.success, [.createAttempt])
    | .otherError m => (.ioError m, [.createAttempt])
    | .eexist =>
      match fs.stat attempt with
      | .gone =>
          let rest := acquireGo fs filePath fuel (attempt + 1)
          (rest.1, .createAttempt :: rest.2)
      | .found age =>
          if LOCK_STALE_MS < age then
            let rest := acquireGo fs filePath fuel (attempt + 1)
            (rest.1, .createAttempt :: .unlinkStale :: rest.2)
          else
            let rest := acquireGo fs filePath fuel (attempt + 1)
            (rest.1, .createAttempt :: .sleep LOCK_RETRY_DELAY_MS :: rest.2)

/-- `acquireLockFile(filePath)`: run the loop from attempt 0 with the
full retry budget. -/
def acquireLockFile (fs : LockFs) (filePath : String) :
    AcquireResult × List LockAction :=
  acquireGo fs filePath LOCK_MAX_RETRIES 0

/- ── Lock coordinator: withFileLock (src/utils/file-lock.ts) ───────── -/

/-- Events of one `withFileLock` call, in program order: await the
previous tail's gate, create/remove the lockfile, run the callback,
resolve this call's gate, tidy the per-path map entry. -/
inductive LockEvent : Type
  | gateAwait
  | lockfileCreate
  | fnRun
  | lockfileUnlink (failed : Bool)
  | gateResolve
  | mapTidy
deriving DecidableEq, Repr

/-- Shallow embedding of `withFileLock(filePath, fn)` for one call whose
turn in the in-process chain has arrived: `acquireRes` is what
`acquireLockFile` did, `fnResult` is the callback's outcome (`.error` =
it threw), and `unlinkFails` tells whether the best-effort lockfile
unlink in `releaseLockFile` fails.  Returns the value `withFileLock`
settles with plus the emitted event trace; the `try`/`finally` nesting
of the source is compiled case by case. -/
def withFileLock (acquireRes : AcquireResult)
    (fnResult : Except String α) (unlinkFails : Bool) :
    Except String α × List LockEvent :=
  match acquireRes with
  | .ioError m =>
      (.error m, [.gateAwait, .gateResolve, .mapTidy])
  | .timeoutError m =>
      (.error m, [.gateAwait, .gateResolve, .mapTidy])
  | .success =>
      (fnResult,
        [.gateAwait, .lockfileCreate, .fnRun, .lockfileUnlink unlinkFails,
         .gateResolve, .mapTidy])

/- ── Lock coordinator: in-process wait chain (src/utils/file-lock.ts) ── -/

/-- One timed execution of `n` same-path `withFileLock` calls issued by
one process, numbered in arrival order into the wait chain.  `outcome`
records whether each callback succeeded (`true`) or threw; `start` and
`finish` are the instants the call enters and leaves its critical
section.  The two constraints are the chain mechanics of the source:
a call's critical section is an interval, and call `i + 1` begins only
after call `i`'s gate is resolved — which the `finally` block does at
completion, with `await previous.catch(() => ...)` ignoring whether call
`i` succeeded or failed (the constraint never consults `outcome`). -/
structure ChainExec (n : Nat) (outcome : Fin n → Bool) : Type where
  start : Fin n → Nat
  finish : Fin n → Nat
  run_interval : ∀ i, start i ≤ finish i
  gate_handoff : ∀ i : Fin n, ∀ h : (i : Nat) + 1 < n,
    finish i < start ⟨(i : Nat) + 1, h⟩

/-- The execution in which every call runs back to back: call `i` holds
the section during `[2i, 2i+1]`.  It satisfies the chain constraints
whatever the outcomes are. -/
def chainExecSequential (n : Nat) (outcome : Fin n → Bool) :
    ChainExec n outcome where
  start i := 2 * (i : Nat)
  finish i := 2 * (i : Nat) + 1
  run_interval i := Nat.le_succ _
  gate_handoff i h := by
    show 2 * (i : Nat) + 1 < 2 * ((i : Nat) + 1)
    omega

/- ════════════════════════ Theorems ════════════════════════ -/

/- ── Normalization lemmas (for C4) ─────────────────────────────────── -/

/-- Join a list of lines with a separator (used to express the same text
under either line-ending mode). -/
def joinWith (sep : List Char) : List (List Char) → List Char
  | [] => []
  | [l] => l
  | l :: ls => l ++ sep ++ joinWith sep ls

theorem stripCR_append (a b : List Char) :
    stripCR (a ++ b) = stripCR a ++ stripCR b :=
  List.filter_append ..

theorem stripCR_of_no_cr {l : List Char} (h : '\r' ∉ l) : stripCR l = l := by
  apply List.filter_eq_self.mpr
  intro c hc
  simp only [decide_eq_true_eq]
  intro hcr
  exact h (hcr ▸ hc)

theorem stripCR_joinWith (sep : List Char) (lines : List (List Char))
    (h : ∀ l ∈ lines, '\r' ∉ l) :
    stripCR (joinWith sep lines) = joinWith (stripCR sep) lines := by
  induction lines with
  | nil => rfl
  | cons l ls ih =>
    cases ls with
    | nil => exact stripCR_of_no_cr (h l (by simp))
    | cons l2 ls2 =>
      have hl : '\r' ∉ l := h l (by simp)
      have hrest : ∀ m ∈ l2 :: ls2, '\r' ∉ m := fun m hm => h m (by simp [hm])
      calc stripCR (joinWith sep (l :: l2 :: ls2))
          = stripCR l ++ stripCR sep ++ stripCR (joinWith sep (l2 :: ls2)) := by
            simp [joinWith, stripCR_append]
        _ = l ++ stripCR sep ++ joinWith (stripCR sep) (l2 :: ls2) := by
            rw [stripCR_of_no_cr hl, ih hrest]
        _ = joinWith (stripCR sep) (l :: l2 :: ls2) := by simp [joinWith]

theorem stripCR_cons (c : Char) (l : List Char) :
    stripCR (c :: l) = if c = '\r' then stripCR l else c :: stripCR l := by
  by_cases hc : c = '\r' <;> simp [stripCR, List.filter_cons, hc]

theorem stripCR_replaceCRLF (l : List Char) :
    stripCR (replaceCRLF l) = stripCR l := by
  induction l using replaceCRLF.induct with
  | case1 => rfl
  | case2 c => rfl
  | case3 c1 c2 rest hcond ih =>
    rcases hcond with ⟨h1, h2⟩
    subst h1
    subst h2
    simp only [replaceCRLF]
    rw [if_pos (by decide)]
    simp [stripCR_cons, ih]
  | case4 c1 c2 rest hcond ih =>
    simp only [replaceCRLF]
    rw [if_neg hcond, stripCR_cons, stripCR_cons, ih]

theorem no_cr_in_normalized (l : List Char) : '\r' ∉ normalizeValueList l := by
  simp [normalizeValueList, stripCR, List.mem_filter]

/-- C4: before storage the upsert value is line-ending normalized —
every CRLF pair collapses to a bare LF and every remaining lone CR is
stripped — so the stored value's internal line breaks are independent of
the file's line-ending mode: the same lines joined with CRLF or with LF
normalize to the identical (LF-joined) stored text, and no stored value
ever contains a carriage return. -/
theorem upsert_value_normalization (lines : List (List Char))
    (h : ∀ l ∈ lines, '\r' ∉ l) :
    normalizeValueList (joinWith ['\r', '\n'] lines) = joinWith ['\n'] lines ∧
    normalizeValueList (joinWith ['\n'] lines) = joinWith ['\n'] lines ∧
    ∀ s : String, '\r' ∉ (normalizeValue s).data := by
  refine ⟨?_, ?_, fun s => no_cr_in_normalized s.data⟩ <;>
    rw [normalizeValueList, stripCR_replaceCRLF, stripCR_joinWith _ _ h] <;> rfl

/-- Witness for C4 at a concrete two-line value. -/
theorem upsert_value_normalization_witness :
    normalizeValueList (joinWith ['\r', '\n'] [['a'], ['b', 'c']])
      = joinWith ['\n'] [['a'], ['b', 'c']] :=
  (upsert_value_normalization [['a'], ['b', 'c']] (by decide)).1

/- ── Upsert lemmas (for C6, C7) ────────────────────────────────────── -/

theorem updateFirstValue_idem (l : List ResxDataEntry) (k v : String) :
    updateFirstValue (updateFirstValue l k v) k v = updateFirstValue l k v := by
  induction l with
  | nil => rfl
  | cons e rest ih =>
    by_cases he : e.name = k <;> simp [updateFirstValue, he, ih]

theorem map_name_updateFirstValue (l : List ResxDataEntry) (k v : String) :
    (updateFirstValue l k v).map (fun e => e.name) = l.map (fun e => e.name) := by
  induction l with
  | nil => rfl
  | cons e rest ih =>
    by_cases he : e.name = k <;> simp [updateFirstValue, he, ih]

theorem findEntry_eq_none_iff (l : List ResxDataEntry) (k : String) :
    findEntry l k = none ↔ ∀ e ∈ l, e.name ≠ k := by
  simp [findEntry, List.find?_eq_none]

theorem findEntry_mem_name {l : List ResxDataEntry} {k : String}
    {e : ResxDataEntry} (h : findEntry l k = some e) :
    e ∈ l ∧ e.name = k := by
  refine ⟨List.mem_of_find?_eq_some h, ?_⟩
  simpa using List.find?_some h

theorem findEntry_append_of_none {l : List ResxDataEntry} {k : String}
    (l2 : List ResxDataEntry) (h : findEntry l k = none) :
    findEntry (l ++ l2) k = findEntry l2 k := by
  induction l with
  | nil => rfl
  | cons e rest ih =>
    rw [findEntry_eq_none_iff] at h
    have he : e.name ≠ k := h e (by simp)
    have hrest : findEntry rest k = none :=
      (findEntry_eq_none_iff ..).mpr fun x hx => h x (by simp [hx])
    simpa [findEntry, List.find?, he] using ih hrest

theorem updateFirstValue_append_of_none {l : List ResxDataEntry} {k : String}
    (l2 : List ResxDataEntry) (v : String) (h : ∀ e ∈ l, e.name ≠ k) :
    updateFirstValue (l ++ l2) k v = l ++ updateFirstValue l2 k v := by
  induction l with
  | nil => rfl
  | cons e rest ih =>
    have he : e.name ≠ k := h e (by simp)
    simp [updateFirstValue, he]
    exact ih fun x hx => h x (by simp [hx])

/-- C7: Upsert is idempotent on the document — applying
`Upsert(D, k, v)` twice in succession yields the same entry list as
applying it once. -/
theorem upsert_idempotent (entries : List ResxDataEntry) (k v : String) :
    (upsertEntries (upsertEntries entries k v).1 k v).1
      = (upsertEntries entries k v).1 := by
  rcases hfind : findEntry entries k with _ | e
  · have hnone : ∀ e ∈ entries, e.name ≠ k :=
      (findEntry_eq_none_iff ..).mp hfind
    have hfind2 : findEntry (entries ++ [newEntry k v]) k
        = some (newEntry k v) := by
      rw [findEntry_append_of_none _ hfind]
      simp [findEntry, List.find?, newEntry]
    simp only [upsertEntries, hfind, hfind2]
    rw [updateFirstValue_append_of_none _ v hnone]
    simp [updateFirstValue, newEntry]
  · have hmem := findEntry_mem_name hfind
    have hk : k ∈ (updateFirstValue entries k v).map (fun e => e.name) := by
      rw [map_name_updateFirstValue]
      exact List.mem_map.mpr ⟨e, hmem.1, hmem.2⟩
    rcases h2 : findEntry (updateFirstValue entries k v) k with _ | e2
    · rw [findEntry_eq_none_iff] at h2
      rcases List.mem_map.mp hk with ⟨x, hx, hxname⟩
      exact absurd hxname (h2 x hx)
    · simp [upsertEntries, hfind, h2, updateFirstValue_idem]


/- ── C6: add/update semantics ──────────────────────────────────────── -/

theorem mem_names_of_findEntry {l : List ResxDataEntry} {k : String}
    {e : ResxDataEntry} (h : findEntry l k = some e) :
    k ∈ l.map (fun e => e.name) := by
  rcases findEntry_mem_name h with ⟨hmem, hname⟩
  exact List.mem_map.mpr ⟨e, hmem, hname⟩

theorem findEntry_eq_none_of_not_mem {l : List ResxDataEntry} {k : String}
    (h : k ∉ l.map (fun e => e.name)) : findEntry l k = none := by
  rw [findEntry_eq_none_iff]
  intro e he heq
  exact h (List.mem_map.mpr ⟨e, he, heq⟩)

theorem updateFirstValue_eq_map {l : List ResxDataEntry} {k : String}
    (v : String) (hnd : (l.map (fun e => e.name)).Nodup) :
    updateFirstValue l k v
      = l.map (fun e => if e.name = k then { e with value := some [v] } else e) := by
  induction l with
  | nil => rfl
  | cons e rest ih =>
    simp only [List.map_cons, List.nodup_cons] at hnd
    by_cases he : e.name = k
    · have hrest : rest.map
          (fun e => if e.name = k then { e with value := some [v] } else e)
          = rest.map id := by
        apply List.map_congr_left
        intro x hx
        have : x.name ≠ k := fun hxk =>
          hnd.1 (he ▸ hxk ▸ List.mem_map.mpr ⟨x, hx, rfl⟩)
        simp [this]
      simp [updateFirstValue, he, hrest]
    · simp [updateFirstValue, he, ih hnd.2]

/-- C6: for every document (with the model's unique-keys invariant) and
key: when a record with the key exists the upsert reports `updated` and
replaces exactly that record's value in place; otherwise it reports
`added` and appends a fresh record carrying the preserve-whitespace
marker; in both cases the resulting document holds exactly one record
with that key. -/
theorem upsert_add_or_update (entries : List ResxDataEntry) (k v : String)
    (hnd : (entries.map (fun e => e.name)).Nodup) :
    ((upsertEntries entries k v).2 = .updated
        ↔ k ∈ entries.map (fun e => e.name)) ∧
    ((upsertEntries entries k v).1.map (fun e => e.name)).count k = 1 ∧
    (k ∈ entries.map (fun e => e.name) →
      (upsertEntries entries k v).1
        = entries.map
            (fun e => if e.name = k then { e with value := some [v] } else e)) ∧
    (k ∉ entries.map (fun e => e.name) →
      (upsertEntries entries k v).1 = entries ++ [newEntry k v] ∧
      (upsertEntries entries k v).2 = .added) := by
  rcases hfind : findEntry entries k with _ | e
  · have hnotmem : k ∉ entries.map (fun e => e.name) := by
      rw [findEntry_eq_none_iff] at hfind
      intro hmem
      rcases List.mem_map.mp hmem with ⟨x, hx, hxname⟩
      exact hfind x hx hxname
    refine ⟨?_, ?_, ?_, fun _ => ⟨?_, ?_⟩⟩ <;>
      simp [upsertEntries, hfind, hnotmem, newEntry, List.count_append,
        List.count_eq_zero.mpr hnotmem]
  · have hmem : k ∈ entries.map (fun e => e.name) := mem_names_of_findEntry hfind
    refine ⟨?_, ?_, fun _ => ?_, fun hnm => absurd hmem hnm⟩
    · simp [upsertEntries, hfind, hmem]
    · rw [show (upsertEntries entries k v).1 = updateFirstValue entries k v by
        simp [upsertEntries, hfind]]
      rw [map_name_updateFirstValue]
      exact List.count_eq_one_of_mem hnd hmem
    · rw [show (upsertEntries entries k v).1 = updateFirstValue entries k v by
        simp [upsertEntries, hfind]]
      exact updateFirstValue_eq_map v hnd

/-- Witness for C6: adding a fresh key to a one-record document. -/
theorem upsert_add_or_update_witness :
    (upsertEntries [⟨"A", none, some ["x"], none⟩] "B" "y").1
        = [⟨"A", none, some ["x"], none⟩] ++ [newEntry "B" "y"] ∧
    (upsertEntries [⟨"A", none, some ["x"], none⟩] "B" "y").2 = .added :=
  (upsert_add_or_update [⟨"A", none, some ["x"], none⟩] "B" "y"
    (by decide)).2.2.2 (by decide)

/- ── C5: sort invariant on every write ─────────────────────────────── -/

instance : IsTotal ResxDataEntry keyLe :=
  ⟨fun a b => le_total (nameKey a) (nameKey b)⟩

instance : IsTrans ResxDataEntry keyLe :=
  ⟨fun _ _ _ hab hbc => le_trans hab hbc⟩

theorem sortEntries_sorted (l : List ResxDataEntry) :
    (sortEntries l).Sorted keyLe :=
  List.sorted_insertionSort keyLe l

theorem sortEntries_perm (l : List ResxDataEntry) :
    (sortEntries l).Perm l :=
  List.perm_insertionSort keyLe l

theorem nodup_names_upsert {entries : List ResxDataEntry} {k : String}
    (v : String) (hnd : (entries.map (fun e => e.name)).Nodup) :
    ((upsertEntries entries k v).1.map (fun e => e.name)).Nodup := by
  rcases hfind : findEntry entries k with _ | e
  · have hnotmem : k ∉ entries.map (fun e => e.name) := by
      rw [findEntry_eq_none_iff] at hfind
      intro hmem
      rcases List.mem_map.mp hmem with ⟨x, hx, hxname⟩
      exact hfind x hx hxname
    have hp : ((upsertEntries entries k v).1.map (fun e => e.name)).Perm
        (k :: entries.map (fun e => e.name)) := by
      simp only [upsertEntries, hfind, List.map_append]
      simp [newEntry]
    exact hp.nodup_iff.mpr (List.nodup_cons.mpr ⟨hnotmem, hnd⟩)
  · simpa [upsertEntries, hfind, map_name_updateFirstValue] using hnd

theorem name_eq_of_nameKey_eq {a b : ResxDataEntry}
    (h : nameKey a = nameKey b) : a.name = b.name := by
  rcases a with ⟨⟨da⟩, _, _, _⟩
  rcases b with ⟨⟨db⟩, _, _, _⟩
  simp only [nameKey] at h
  exact congrArg String.mk h

/-- C5: after any Upsert-and-write the on-disk record sequence is
strictly ascending by ordinal key (for any starting document with the
unique-keys invariant, any key and value, any `N ≥ 0`), and the
serializer's sort is applied unconditionally on every write: for every
entry list — reordered or not — the written sequence is ascending and is
a permutation of the input. -/
theorem write_sort_invariant (entries : List ResxDataEntry) (k v : String)
    (hnd : (entries.map (fun e => e.name)).Nodup) :
    List.Pairwise (fun a b => nameKey a < nameKey b)
      (upsertAndWrite entries k v) ∧
    (∀ l : List ResxDataEntry,
      (sortEntries l).Sorted keyLe ∧ (sortEntries l).Perm l) := by
  refine ⟨?_, fun l => ⟨sortEntries_sorted l, sortEntries_perm l⟩⟩
  have hperm : (upsertAndWrite entries k v).Perm (upsertEntries entries k v).1 :=
    sortEntries_perm _
  have hnodup : ((upsertAndWrite entries k v).map (fun e => e.name)).Nodup :=
    ((hperm.map (fun e => e.name)).nodup_iff).mpr (nodup_names_upsert v hnd)
  have hne : List.Pairwise (fun a b => a.name ≠ b.name)
      (upsertAndWrite entries k v) :=
    (List.pairwise_map).mp hnodup
  have hle : List.Pairwise keyLe (upsertAndWrite entries k v) :=
    sortEntries_sorted _
  exact (hle.and hne).imp fun {a b} h =>
    lt_of_le_of_ne h.1 fun heq => h.2 (name_eq_of_nameKey_eq heq)

/-- Witness for C5: upserting `MANGO` into `{ZEBRA, APPLE}` yields a
strictly ascending on-disk sequence. -/
theorem write_sort_invariant_witness :
    List.Pairwise (fun a b => nameKey a < nameKey b)
      (upsertAndWrite
        [⟨"ZEBRA", none, some ["z"], none⟩, ⟨"APPLE", none, some ["a"], none⟩]
        "MANGO" "m") :=
  (write_sort_invariant
    [⟨"ZEBRA", none, some ["z"], none⟩, ⟨"APPLE", none, some ["a"], none⟩]
    "MANGO" "m" (by decide)).1

/- ── C1: no lost update across a serialized batch of upserts ───────── -/

theorem upsertAndWrite_fresh_perm {es : List ResxDataEntry} {k : String}
    (v : String) (h : k ∉ es.map (fun e => e.name)) :
    (upsertAndWrite es k v).Perm (es ++ [newEntry k v]) := by
  have hfind : findEntry es k = none := findEntry_eq_none_of_not_mem h
  have heq : upsertAndWrite es k v = sortEntries (es ++ [newEntry k v]) := by
    simp [upsertAndWrite, upsertEntries, hfind]
  rw [heq]
  exact sortEntries_perm _

theorem foldl_upsert_fresh (order : List (String × String)) :
    ∀ es : List ResxDataEntry,
      (∀ p ∈ order, p.1 ∉ es.map (fun e => e.name)) →
      (order.map Prod.fst).Nodup →
      (order.foldl (fun es p => upsertAndWrite es p.1 p.2) es).Perm
        (es ++ order.map (fun p => newEntry p.1 p.2)) := by
  induction order with
  | nil => simp
  | cons p rest ih =>
    intro es hfresh hnodup
    have hp : p.1 ∉ es.map (fun e => e.name) := hfresh p (by simp)
    have hstep : (upsertAndWrite es p.1 p.2).Perm (es ++ [newEntry p.1 p.2]) :=
      upsertAndWrite_fresh_perm p.2 hp
    have hnames : ((upsertAndWrite es p.1 p.2).map (fun e => e.name)).Perm
        (es.map (fun e => e.name) ++ [p.1]) := by
      simpa [newEntry] using hstep.map (fun e => e.name)
    simp only [List.map_cons, List.nodup_cons] at hnodup
    have hfresh' : ∀ q ∈ rest,
        q.1 ∉ (upsertAndWrite es p.1 p.2).map (fun e => e.name) := by
      intro q hq hmem
      rcases List.mem_append.mp (hnames.mem_iff.mp hmem) with hin | hin
      · exact hfresh q (by simp [hq]) hin
      · have hq1 : q.1 = p.1 := by simpa using hin
        exact hnodup.1 (hq1 ▸ List.mem_map.mpr ⟨q, hq, rfl⟩)
    have hrec := ih (upsertAndWrite es p.1 p.2) hfresh' hnodup.2
    have hcombined := hrec.trans (hstep.append_right _)
    have hfinal : (es ++ [newEntry p.1 p.2])
          ++ rest.map (fun p => newEntry p.1 p.2)
        = es ++ (p :: rest).map (fun p => newEntry p.1 p.2) := by simp
    rw [hfinal] at hcombined
    simpa using hcombined

/-- C1: under the mutual exclusion the lock coordinator provides, a run
of K concurrent upsert workflows against one path is a serialization of
their K locked read-modify-write round trips in some order; for every
initial document, every batch of K distinct fresh keys and every
serialization order, the final document contains exactly the original
records plus all K new records — no write is lost. -/
theorem concurrent_upserts_no_lost_write
    (init : List ResxDataEntry) (ps order : List (String × String))
    (hnd : ((init.map (fun e => e.name)) ++ ps.map Prod.fst).Nodup)
    (horder : order.Perm ps) :
    (order.foldl (fun es p => upsertAndWrite es p.1 p.2) init).Perm
      (init ++ ps.map (fun p => newEntry p.1 p.2)) := by
  rcases List.nodup_append.mp hnd with ⟨hinit, hps, hdisj⟩
  have hfresh : ∀ p ∈ order, p.1 ∉ init.map (fun e => e.name) := by
    intro p hp hmem
    exact hdisj hmem (List.mem_map.mpr ⟨p, horder.mem_iff.mp hp, rfl⟩)
  have hordkeys : (order.map Prod.fst).Nodup :=
    ((horder.map Prod.fst).nodup_iff).mpr hps
  exact (foldl_upsert_fresh order init hfresh hordkeys).trans
    ((horder.map (fun p => newEntry p.1 p.2)).append_left init)

/-- Witness for C1: two concurrent inserts of distinct keys, serialized
in the reverse of issue order, lose neither write. -/
theorem concurrent_upserts_no_lost_write_witness :
    (([("B", "2"), ("A", "1")] :
        List (String × String)).foldl
          (fun es p => upsertAndWrite es p.1 p.2)
          [⟨"EXISTING_KEY", none, some ["Old Value"], none⟩]).Perm
      ([⟨"EXISTING_KEY", none, some ["Old Value"], none⟩]
        ++ ([("A", "1"), ("B", "2")] :
          List (String × String)).map (fun p => newEntry p.1 p.2)) :=
  concurrent_upserts_no_lost_write
    [⟨"EXISTING_KEY", none, some ["Old Value"], none⟩]
    [("A", "1"), ("B", "2")] [("B", "2"), ("A", "1")]
    (by decide) (by decide)

/- ── C2: parse and write happen inside the lock ────────────────────── -/

/-- Event trace of one upsert handler run. -/
def upsertEvents (filePath key value : Option JsValue)
    (disk : Option ResxDocument) : List FsEvent :=
  (handleUpsertTranslation filePath key value disk).events

/-- C2: in every execution of the upsert workflow whose arguments pass
validation, the on-disk document is parsed strictly after the lock for
the target path is acquired, and the serialize-and-write happens before
the lock is released — the read phase runs inside the locked section,
never on a snapshot taken before the wait. -/
theorem parse_and_write_inside_lock (filePath key value : Option JsValue)
    (disk : Option ResxDocument) (fp k v : String)
    (h1 : requireResxPath filePath "filePath" = .ok fp)
    (h2 : requireString key "key" = .ok k)
    (h3 : requireString value "value" = .ok v) :
    ((upsertEvents filePath key value disk).indexOf .lockAcquire
        < (upsertEvents filePath key value disk).indexOf .parseFile) ∧
    ((upsertEvents filePath key value disk).indexOf .parseFile
        < (upsertEvents filePath key value disk).indexOf .lockRelease) ∧
    FsEvent.lockAcquire ∈ upsertEvents filePath key value disk ∧
    FsEvent.parseFile ∈ upsertEvents filePath key value disk ∧
    FsEvent.lockRelease ∈ upsertEvents filePath key value disk ∧
    (∀ doc, disk = some doc →
      FsEvent.writeFile ∈ upsertEvents filePath key value disk ∧
      (upsertEvents filePath key value disk).indexOf .parseFile
          < (upsertEvents filePath key value disk).indexOf .writeFile ∧
      (upsertEvents filePath key value disk).indexOf .writeFile
          < (upsertEvents filePath key value disk).indexOf .lockRelease) := by
  cases disk with
  | none =>
    simp only [upsertEvents, handleUpsertTranslation, h1, h2, h3]
    refine ⟨by decide, by decide, by decide, by decide, by decide, ?_⟩
    intro doc hdoc
    exact absurd hdoc (by simp)
  | some doc =>
    simp only [upsertEvents, handleUpsertTranslation, h1, h2, h3]
    refine ⟨by decide, by decide, by decide, by decide, by decide, ?_⟩
    intro d hd
    exact ⟨by decide, by decide, by decide⟩

/-- Witness for C2 on a concrete document. -/
theorem parse_and_write_inside_lock_witness :
    ((upsertEvents (some (.str "L.resx")) (some (.str "K"))
        (some (.str "V")) (some ⟨⟨[], some []⟩⟩)).indexOf .lockAcquire
      < (upsertEvents (some (.str "L.resx")) (some (.str "K"))
        (some (.str "V")) (some ⟨⟨[], some []⟩⟩)).indexOf .parseFile) :=
  (parse_and_write_inside_lock (some (.str "L.resx")) (some (.str "K"))
    (some (.str "V")) (some ⟨⟨[], some []⟩⟩) "L.resx" "K" "V"
    rfl rfl rfl).1

/- ── C10: argument validation and trimming ─────────────────────────── -/

/-- C10 as written is refuted here: the value actually stored is not the
trimmed input when the trimmed input still contains a CR — the handler
additionally normalizes line endings after trimming.  Upserting the raw
value `" A\r\nB "` stores `"A\nB"`, while the trimmed form is
`"A\r\nB"`. -/
theorem validation_trim_counterexample :
    (handleUpsertTranslation (some (.str "L.resx")) (some (.str "K"))
        (some (.str " A\r\nB "))
        (some ⟨⟨[], some []⟩⟩)).disk
      = some ⟨⟨[], some [⟨"K", some "preserve", some ["A\nB"], none⟩]⟩⟩ ∧
    jsTrim " A\r\nB " = "A\r\nB" ∧
    ("A\nB" : String) ≠ "A\r\nB" := by
  refine ⟨by decide, by decide, by decide⟩

/-- C10 (amended): every string argument is trimmed before use —
`requireString` returns the trimmed string, the stored key is the
trimmed key and the stored value is the trimmed value after line-ending
normalization — and a missing, non-string or whitespace-only argument
makes the handler throw a descriptive error before any lock or file
access is attempted (no events are emitted, the disk is untouched). -/
theorem validation_trims_and_rejects :
    (∀ s p r, requireString (some (.str s)) p = .ok r → r = jsTrim s) ∧
    (∀ p, requireString none p = .error (requireStringMsg p)) ∧
    (∀ p, requireString (some .nonString) p = .error (requireStringMsg p)) ∧
    (∀ s p, jsTrimList s.data = [] →
      requireString (some (.str s)) p = .error (requireStringMsg p)) ∧
    (∀ filePath key value disk e,
      (handleUpsertTranslation filePath key value disk).result = .error e →
      (handleUpsertTranslation filePath key value disk).events = [] ∧
      (handleUpsertTranslation filePath key value disk).disk = disk) ∧
    (∀ fp k v (doc : ResxDocument),
      jsTrimList fp.data ≠ [] →
      strEndsWith (jsToLower (jsTrim fp)) ".resx" = true →
      jsTrimList k.data ≠ [] →
      jsTrimList v.data ≠ [] →
      (handleUpsertTranslation (some (.str fp)) (some (.str k))
          (some (.str v)) (some doc)).disk
        = some ⟨{ doc.root with data := some (sortEntries
            (upsertEntries (doc.root.data.getD []) (jsTrim k)
              (normalizeValue (jsTrim v))).1) }⟩) := by
  have hok : ∀ s p, jsTrimList s.data ≠ [] →
      requireString (some (.str s)) p = .ok (jsTrim s) := by
    intro s p hs
    simp only [requireString, jsTrim]
    rw [if_neg]
    simpa [List.length_eq_zero] using hs
  refine ⟨?_, fun p => rfl, fun p => rfl, ?_, ?_, ?_⟩
  · intro s p r h
    simp only [requireString] at h
    by_cases hs : (jsTrim s).data.length = 0
    · rw [if_pos hs] at h
      exact absurd h (by simp)
    · rw [if_neg hs] at h
      simpa using h.symm
  · intro s p hs
    simp only [requireString, jsTrim]
    rw [if_pos]
    simpa [List.length_eq_zero] using hs
  · intro filePath key value disk e herr
    rcases hfp : requireResxPath filePath "filePath" with e1 | fp
    · simp [handleUpsertTranslation, hfp]
    · rcases hk : requireString key "key" with e2 | k
      · simp [handleUpsertTranslation, hfp, hk]
      · rcases hv : requireString value "value" with e3 | v
        · simp [handleUpsertTranslation, hfp, hk, hv]
        · exfalso
          rcases disk with _ | doc <;>
            simp [handleUpsertTranslation, hfp, hk, hv] at herr
  · intro fp k v doc hfp hresx hk hv
    have h1 : requireResxPath (some (.str fp)) "filePath" = .ok (jsTrim fp) := by
      simp only [requireResxPath, hok fp "filePath" hfp]
      rw [if_pos hresx]
    simp [handleUpsertTranslation, h1, hok k "key" hk, hok v "value" hv]

/-- Witness for C10 (amended): a concrete call stores the trimmed key
and the trimmed-then-normalized value. -/
theorem validation_trims_and_rejects_witness :
    (handleUpsertTranslation (some (.str "a.resx")) (some (.str " K "))
        (some (.str " V ")) (some ⟨⟨[], some []⟩⟩)).disk
      = some ⟨⟨[], some (sortEntries
          (upsertEntries [] (jsTrim " K ") (normalizeValue (jsTrim " V "))).1)⟩⟩ :=
  validation_trims_and_rejects.2.2.2.2.2 "a.resx" " K " " V " ⟨⟨[], some []⟩⟩
    (by decide) (by decide) (by decide) (by decide)

/- ── C3: lockfile acquisition retry policy ─────────────────────────── -/

theorem acquireGo_timeout_of_all_eexist (fs : LockFs) (p : String) :
    ∀ (fuel a : Nat), (∀ i, i < fuel → fs.create (a + i) = .eexist) →
      (acquireGo fs p fuel a).1 = .timeoutError (lockTimeoutMsg p) := by
  intro fuel
  induction fuel with
  | zero => intro a h; rfl
  | succ n ih =>
    intro a h
    have h0 : fs.create a = .eexist := by simpa using h 0 (Nat.succ_pos n)
    have hrest : ∀ i, i < n → fs.create (a + 1 + i) = .eexist := by
      intro i hi
      have := h (i + 1) (by omega)
      rwa [show a + (i + 1) = a + 1 + i by omega] at this
    have htail := ih (a + 1) hrest
    simp only [acquireGo, h0]
    cases hstat : fs.stat a with
    | gone => simpa using htail
    | found age =>
      by_cases hage : LOCK_STALE_MS < age <;> simp [hage] <;> exact htail

theorem acquireGo_reaches (fs : LockFs) (p : String) :
    ∀ (j fuel a : Nat), (∀ i, i < j → fs.create (a + i) = .eexist) →
      j ≤ fuel →
      (acquireGo fs p fuel a).1 = (acquireGo fs p (fuel - j) (a + j)).1 := by
  intro j
  induction j with
  | zero => intro fuel a h hle; simp
  | succ n ih =>
    intro fuel a h hle
    cases fuel with
    | zero => omega
    | succ m =>
      have h0 : fs.create a = .eexist := by simpa using h 0 (Nat.succ_pos n)
      have hstep : (acquireGo fs p (m + 1) a).1 = (acquireGo fs p m (a + 1)).1 := by
        simp only [acquireGo, h0]
        cases hstat : fs.stat a with
        | gone => simp
        | found age => by_cases hage : LOCK_STALE_MS < age <;> simp [hage]
      have hrest : ∀ i, i < n → fs.create (a + 1 + i) = .eexist := by
        intro i hi
        have := h (i + 1) (by omega)
        rwa [show a + (i + 1) = a + 1 + i by omega] at this
      rw [hstep, ih m (a + 1) hrest (by omega),
        show m - n = m + 1 - (n + 1) by omega,
        show a + 1 + n = a + (n + 1) by omega]

/-- C3: the lockfile acquisition loop follows the documented policy —
the numeric constants are 30 s staleness, 50 ms backoff, 100 attempts;
if every attempt finds the lockfile present the call fails with the
lock-acquisition-timeout error; a create failure other than
already-exists stops the loop at once with that error and no further
action; when the existing lockfile's age exceeds the staleness threshold
the loop unlinks it and retries immediately with no sleep; otherwise it
sleeps the fixed 50 ms backoff before the next attempt. -/
theorem acquire_lock_retry_policy (fs : LockFs) (p : String) :
    (LOCK_STALE_MS = 30000 ∧ LOCK_RETRY_DELAY_MS = 50
      ∧ LOCK_MAX_RETRIES = 100) ∧
    ((∀ i, i < LOCK_MAX_RETRIES → fs.create i = .eexist) →
      (acquireLockFile fs p).1 = .timeoutError (lockTimeoutMsg p)) ∧
    (∀ fuel j m, fs.create j = .otherError m →
      acquireGo fs p (fuel + 1) j = (.ioError m, [.createAttempt])) ∧
    (∀ j m, j < LOCK_MAX_RETRIES → (∀ i, i < j → fs.create i = .eexist) →
      fs.create j = .otherError m → (acquireLockFile fs p).1 = .ioError m) ∧
    (∀ fuel j age, fs.create j = .eexist → fs.stat j = .found age →
      LOCK_STALE_MS < age →
      acquireGo fs p (fuel + 1) j
        = ((acquireGo fs p fuel (j + 1)).1,
            .createAttempt :: .unlinkStale :: (acquireGo fs p fuel (j + 1)).2)) ∧
    (∀ fuel j age, fs.create j = .eexist → fs.stat j = .found age →
      ¬ LOCK_STALE_MS < age →
      acquireGo fs p (fuel + 1) j
        = ((acquireGo fs p fuel (j + 1)).1,
            .createAttempt :: .sleep LOCK_RETRY_DELAY_MS
              :: (acquireGo fs p fuel (j + 1)).2)) := by
  refine ⟨⟨rfl, rfl, rfl⟩, ?_, ?_, ?_, ?_, ?_⟩
  · intro h
    exact acquireGo_timeout_of_all_eexist fs p LOCK_MAX_RETRIES 0
      (fun i hi => by simpa using h i hi)
  · intro fuel j m hc
    simp [acquireGo, hc]
  · intro j m hj hbefore hc
    have hreach := acquireGo_reaches fs p j LOCK_MAX_RETRIES 0
      (fun i hi => by simpa using hbefore i hi) (le_of_lt hj)
    rcases hk : LOCK_MAX_RETRIES - j with _ | k
    · omega
    · rw [acquireLockFile, hreach, hk]
      simp [acquireGo, hc]
  · intro fuel j age hc hstat hage
    simp [acquireGo, hc, hstat, hage]
  · intro fuel j age hc hstat hage
    simp [acquireGo, hc, hstat, hage]

/-- Witness for C3: a permanently held fresh lock exhausts the retry
budget and raises the timeout error. -/
theorem acquire_lock_retry_policy_witness :
    (acquireLockFile ⟨fun _ => .eexist, fun _ => .found 0⟩ "file.resx").1
      = .timeoutError (lockTimeoutMsg "file.resx") :=
  (acquire_lock_retry_policy ⟨fun _ => .eexist, fun _ => .found 0⟩
    "file.resx").2.1 (fun _ _ => rfl)

/- ── C8: withFileLock always releases and propagates faithfully ────── -/

/-- C8: whenever the callback runs (the lockfile was acquired), its
value or exception is propagated unchanged to the caller; the lockfile
unlink and the chain-gate resolution both appear in the trace, unlink
before gate resolution; the trace does not depend on whether the
callback succeeded or threw; a failing unlink changes nothing about the
returned value; and the gate is resolved in every case, even when
acquisition itself failed. -/
theorem withFileLock_releases_and_propagates {α : Type} :
    (∀ (fnResult : Except String α) (unlinkFails : Bool),
      (withFileLock .success fnResult unlinkFails).1 = fnResult) ∧
    (∀ (fnResult : Except String α) (unlinkFails : Bool),
      LockEvent.lockfileUnlink unlinkFails
          ∈ (withFileLock .success fnResult unlinkFails).2 ∧
      LockEvent.gateResolve ∈ (withFileLock .success fnResult unlinkFails).2 ∧
      (withFileLock .success fnResult unlinkFails).2.indexOf
          (.lockfileUnlink unlinkFails)
        < (withFileLock .success fnResult unlinkFails).2.indexOf
          .gateResolve) ∧
    (∀ (f1 f2 : Except String α) (u : Bool),
      (withFileLock .success f1 u).2 = (withFileLock .success f2 u).2) ∧
    (∀ (f : Except String α),
      (withFileLock .success f true).1 = (withFileLock .success f false).1) ∧
    (∀ (acquireRes : AcquireResult) (f : Except String α) (u : Bool),
      LockEvent.gateResolve ∈ (withFileLock acquireRes f u).2) := by
  refine ⟨fun f u => rfl, fun f u => ⟨?_, ?_, ?_⟩, fun f1 f2 u => rfl,
    fun f => rfl, fun acq f u => ?_⟩
  · simp [withFileLock]
  · simp [withFileLock]
  · cases u <;> simp only [withFileLock] <;> decide
  · cases acq <;> simp [withFileLock]

/- ── C9: in-process chain is strict FIFO, failure never blocks ─────── -/

/-- C9: for same-path operations of one process, completion order equals
arrival order into the wait chain — in every execution permitted by the
chain constraints, an earlier arrival finishes strictly before a later
one — and for every assignment of success/failure outcomes an execution
in which all `n` operations run to completion exists (the hand-off
ignores outcomes, so one failed operation never prevents the next from
running). -/
theorem chain_fifo_completion :
    (∀ (n : Nat) (outcome : Fin n → Bool) (E : ChainExec n outcome)
        (i j : Fin n), i < j → E.finish i < E.finish j) ∧
    (∀ (n : Nat) (outcome : Fin n → Bool), Nonempty (ChainExec n outcome)) := by
  refine ⟨?_, fun n outcome => ⟨chainExecSequential n outcome⟩⟩
  intro n outcome E
  have key : ∀ d : Nat, ∀ i j : Fin n, (j : Nat) = (i : Nat) + d + 1 →
      E.finish i < E.finish j := by
    intro d
    induction d with
    | zero =>
      intro i j hj
      have h1 : (i : Nat) + 1 < n := hj ▸ j.isLt
      have hq : (⟨(i : Nat) + 1, h1⟩ : Fin n) = j :=
        Fin.ext (show (i : Nat) + 1 = (j : Nat) by omega)
      calc E.finish i < E.start ⟨(i : Nat) + 1, h1⟩ := E.gate_handoff i h1
        _ ≤ E.finish ⟨(i : Nat) + 1, h1⟩ := E.run_interval _
        _ = E.finish j := by rw [hq]
    | succ d ih =>
      intro i j hj
      have h1 : (i : Nat) + 1 < n := by omega
      have hstep : E.finish i < E.finish ⟨(i : Nat) + 1, h1⟩ :=
        lt_of_lt_of_le (E.gate_handoff i h1) (E.run_interval _)
      refine lt_trans hstep (ih ⟨(i : Nat) + 1, h1⟩ j ?_)
      show (j : Nat) = (i : Nat) + 1 + d + 1
      omega
  intro i j hij
  have hij' : (i : Nat) < (j : Nat) := hij
  exact key ((j : Nat) - (i : Nat) - 1) i j (by omega)

/-- Witness for C9: in the back-to-back execution of two operations
whose callbacks both fail, the first still completes before the second. -/
theorem chain_fifo_completion_witness :
    (chainExecSequential 2 (fun _ => false)).finish ⟨0, by omega⟩
      < (chainExecSequential 2 (fun _ => false)).finish ⟨1, by omega⟩ :=
  chain_fifo_completion.1 2 (fun _ => false)
    (chainExecSequential 2 (fun _ => false)) ⟨0, by omega⟩ ⟨1, by omega⟩
    (by decide)
